import Mathlib

/-!
Shallow embedding of the TrendSearch vector-database conversion scripts.

Two chunked binary exporters exist in the repository:
* `convert_to_binary_chunks` in
  `attached_assets/convert_vector_database_1761128315212.py` (here the
  `metadata1` / `exportTrace1` family), and
* `main` of `scripts/convert-pickle-to-binary.py` (here the `metadata2` /
  `exportTrace2` family, together with its path-existence / shape-checking
  loader `loadDatabase2`).

Embedding float32 values: a stored float32 is modelled as its 32-bit pattern,
a natural number below 2 to the 32; `numpy.tobytes` on a float32 array emits
each element as 4 consecutive little-endian bytes, modelled by
`word32ToBytes`.
-/

namespace TrendSearch

/-- The four little-endian bytes of a 32-bit word (one float32 value),
as written by `ndarray.astype(np.float32).tobytes()`. -/
def word32ToBytes (w : Nat) : List Nat :=
  [w % 256, w / 256 % 256, w / 65536 % 256, w / 16777216 % 256]

/-- Recombine four little-endian bytes into a 32-bit word. -/
def bytesToWord32 (b0 b1 b2 b3 : Nat) : Nat :=
  b0 + 256 * b1 + 65536 * b2 + 16777216 * b3

/-- Decode a byte stream as consecutive 4-byte little-endian float32 words. -/
def decodeWords : List Nat → List Nat
  | b0 :: b1 :: b2 :: b3 :: rest => bytesToWord32 b0 b1 b2 b3 :: decodeWords rest
  | _ => []

/-- Serialization of one embedding row (list of float32 words) to bytes. -/
def rowBytes (r : List Nat) : List Nat := (r.map word32ToBytes).flatten

/-- Row-major serialization of a matrix to bytes: `row0, row1, ...`. -/
def matrixBytes (rows : List (List Nat)) : List Nat := (rows.map rowBytes).flatten

/-- Group a decoded word stream back into rows of width `D`. -/
def groupRows (D : Nat) (ws : List Nat) : List (List Nat) :=
  if h : ws = [] ∨ D = 0 then [] else ws.take D :: groupRows D (ws.drop D)
termination_by ws.length
decreasing_by
  push_neg at h
  have h1 : 0 < ws.length := List.length_pos.mpr h.1
  have h2 : 0 < D := Nat.pos_of_ne_zero h.2
  simp only [List.length_drop]
  omega

/-- Python slice `l[s:e]`. -/
def slice (l : List α) (s e : Nat) : List α := (l.drop s).take (e - s)

/-- `num_chunks = (total_keywords + chunk_size - 1) // chunk_size`,
the formula both scripts use. -/
def numChunks (n cs : Nat) : Nat := (n + cs - 1) / cs

/-- Ceiling division written the way the spec states it,
`ceil(N / chunk_size)`: the quotient, plus one when there is a remainder. -/
def ceilNat (n cs : Nat) : Nat := n / cs + (if n % cs = 0 then 0 else 1)

/-! The data model: an in-memory keyword/embedding database. Each matrix
entry is the 32-bit pattern of a float32 value. -/

structure Database where
  keywords : List String
  dim : Nat
  rows : List (List Nat)
deriving DecidableEq

/-- Well-formedness, the `KeywordVectorSet` invariant: as many matrix rows as
keywords, every row of width `dim`, every entry a 32-bit pattern. -/
def DatabaseWF (db : Database) : Prop :=
  db.rows.length = db.keywords.length ∧
  (∀ r ∈ db.rows, r.length = db.dim) ∧
  (∀ r ∈ db.rows, ∀ x ∈ r, x < 4294967296)

instance (db : Database) : Decidable (DatabaseWF db) := by
  unfold DatabaseWF
  infer_instance

/-- Python `f-string` zero padding of a natural number to minimum width `w`
(`f"{n:02d}"` and `f"{n:03d}"`): leading zeros are added only while the
decimal numeral is shorter than `w`. -/
def padZeros (w n : Nat) : String :=
  String.mk (List.replicate (w - (Nat.repr n).length) '0') ++ Nat.repr n

/-! Script 1: `convert_to_binary_chunks` of
`attached_assets/convert_vector_database_1761128315212.py`. -/

/-- `chunk_filename = f"chunk_{chunk_idx:02d}.bin"`. -/
def chunkFilename1 (i : Nat) : String := "chunk_" ++ padZeros 2 i ++ ".bin"

/-- One entry of the manifest's `chunks` array (script 1). -/
structure ChunkInfo where
  chunk_id : Nat
  filename : String
  start_index : Nat
  end_index : Nat
  keyword_count : Nat
  keywords : List String
deriving DecidableEq

/-- The metadata record appended for chunk `i`: indices, the slice of the
keyword list, and its length as `keyword_count`. -/
def mkChunkInfo1 (db : Database) (cs i : Nat) : ChunkInfo :=
  let s := i * cs
  let e := min (s + cs) db.keywords.length
  let ck := slice db.keywords s e
  { chunk_id := i, filename := chunkFilename1 i, start_index := s,
    end_index := e, keyword_count := ck.length, keywords := ck }

/-- The bytes written to chunk file `i`:
`embeddings[start:end].astype(np.float32).tobytes()`. -/
def chunkBytes (db : Database) (cs i : Nat) : List Nat :=
  matrixBytes (slice db.rows (i * cs) (min (i * cs + cs) db.keywords.length))

/-- The `metadata.json` content built by script 1 (`chunk_metadata`). -/
structure Metadata1 where
  version : String
  total_keywords : Nat
  embedding_dimension : Nat
  chunk_size : Nat
  num_chunks : Nat
  chunks : List ChunkInfo
deriving DecidableEq

def metadata1 (db : Database) (cs : Nat) : Metadata1 :=
  { version := "1.0.0",
    total_keywords := db.keywords.length,
    embedding_dimension := db.dim,
    chunk_size := cs,
    num_chunks := numChunks db.keywords.length cs,
    chunks := (List.range (numChunks db.keywords.length cs)).map
      (mkChunkInfo1 db cs) }

/-- A file write performed by script 1: either one chunk binary, or the
final `metadata.json`. -/
inductive WriteEvent1 where
  | chunkFile (name : String) (bytes : List Nat)
  | manifest (m : Metadata1)
deriving DecidableEq

/-- The sequence of file writes script 1 performs, in program order: all
chunk files, then the manifest. -/
def exportTrace1 (db : Database) (cs : Nat) : List WriteEvent1 :=
  ((List.range (numChunks db.keywords.length cs)).map
    fun i => WriteEvent1.chunkFile (chunkFilename1 i) (chunkBytes db cs i))
  ++ [WriteEvent1.manifest (metadata1 db cs)]

/-! Script 2: `main` of `scripts/convert-pickle-to-binary.py`. -/

def CHUNK_SIZE : Nat := 2000

def EMBEDDING_DIM : Nat := 384

/-- `chunk_filename = f"chunk_{chunk_id:03d}.bin"`. -/
def chunkFilename2 (i : Nat) : String := "chunk_" ++ padZeros 3 i ++ ".bin"

/-- One entry of the manifest's `chunks` array (script 2). Note the code
stores `end_index - 1`, the inclusive upper index. -/
structure ChunkRecord2 where
  chunk_id : Nat
  start_index : Nat
  end_index : Nat
  keyword_count : Nat
  file_path : String
deriving DecidableEq

def mkChunkRecord2 (n cs i : Nat) : ChunkRecord2 :=
  let s := i * cs
  let e := min (s + cs) n
  { chunk_id := i, start_index := s, end_index := e - 1,
    keyword_count := e - s, file_path := chunkFilename2 i }

def chunkRecords2 (n cs : Nat) : List ChunkRecord2 :=
  (List.range (numChunks n cs)).map (mkChunkRecord2 n cs)

/-- One entry of the flat per-keyword index (`keyword_index` in script 2). -/
structure KeywordIndexEntry where
  keyword : String
  chunk_id : Nat
  local_index : Nat
deriving DecidableEq

/-- The entries appended while writing chunk `i`:
`{keyword: keywords[start_index + j], chunk_id: i, local_index: j}` for
`j` in `range(chunk_keyword_count)`. -/
def chunkIndexEntries (kws : List String) (cs i : Nat) : List KeywordIndexEntry :=
  let s := i * cs
  let e := min (s + cs) kws.length
  (List.range (e - s)).map fun j =>
    { keyword := kws.getD (s + j) "", chunk_id := i, local_index := j }

/-- The complete flat keyword index, accumulated over all chunks. -/
def keywordIndex2 (kws : List String) (cs : Nat) : List KeywordIndexEntry :=
  ((List.range (numChunks kws.length cs)).map (chunkIndexEntries kws cs)).flatten

/-- The `embeddings_metadata.json` content built by script 2. -/
structure Metadata2 where
  version : String
  created_at : String
  total_keywords : Nat
  embedding_dimensions : Nat
  chunk_size : Nat
  chunks : List ChunkRecord2
  keywords : List KeywordIndexEntry
deriving DecidableEq

/-- Script 2's metadata; `now` is the value of `np.datetime64('now')`
captured at manifest-build time. -/
def metadata2 (db : Database) (cs : Nat) (now : String) : Metadata2 :=
  { version := "3.0.0",
    created_at := now,
    total_keywords := db.keywords.length,
    embedding_dimensions := EMBEDDING_DIM,
    chunk_size := cs,
    chunks := chunkRecords2 db.keywords.length cs,
    keywords := keywordIndex2 db.keywords cs }

inductive WriteEvent2 where
  | chunkFile (name : String) (bytes : List Nat)
  | manifest (m : Metadata2)
deriving DecidableEq

/-- The sequence of file writes script 2 performs, in program order: all
chunk files, then the manifest. -/
def exportTrace2 (db : Database) (cs : Nat) (now : String) : List WriteEvent2 :=
  ((List.range (numChunks db.keywords.length cs)).map
    fun i => WriteEvent2.chunkFile (chunkFilename2 i) (chunkBytes db cs i))
  ++ [WriteEvent2.manifest (metadata2 db cs now)]

/-! The loader of script 2 (path-existence check, field access, shape
check). A pickled container is a dictionary which may or may not carry the
`keywords` and `embeddings` fields; an ndarray carries its shape. -/

/-- A 2-D ndarray as stored in the pickle: shape plus entries. -/
structure NDMatrix where
  nrows : Nat
  ncols : Nat
  entries : List (List Nat)
deriving DecidableEq

structure PickleContainer where
  keywords : Option (List String)
  embeddings : Option NDMatrix
deriving DecidableEq

/-- `FileNotFoundError` / `KeyError`-or-`ValueError` as the spec's taxonomy
names them. -/
inductive LoadError where
  | NotFoundError
  | FormatError
deriving DecidableEq

/-- Script 2's load phase: raise `FileNotFoundError` when the path does not
exist, `KeyError` (a format failure) when a field is missing, and
`ValueError` when `embeddings.shape != (len(keywords), EMBEDDING_DIM)`. -/
def loadDatabase2 (fs : String → Option PickleContainer) (path : String) :
    Except LoadError Database :=
  match fs path with
  | none => .error .NotFoundError
  | some c =>
    match c.embeddings, c.keywords with
    | some emb, some kws =>
      if emb.nrows = kws.length ∧ emb.ncols = EMBEDDING_DIM then
        .ok { keywords := kws, dim := emb.ncols, rows := emb.entries }
      else .error .FormatError
    | _, _ => .error .FormatError

theorem numChunks_eq_ceilNat (n cs : Nat) (hcs : 0 < cs) :
    numChunks n cs = ceilNat n cs := by
  rcases Nat.eq_zero_or_pos n with hn | hn
  · subst hn
    unfold numChunks ceilNat
    rw [Nat.zero_add, Nat.div_eq_of_lt (Nat.sub_lt hcs Nat.one_pos),
      Nat.zero_div, Nat.zero_mod]
    simp
  · have hq := Nat.div_add_mod n cs
    have hr : n % cs < cs := Nat.mod_lt n hcs
    unfold numChunks ceilNat
    have hsplit : n + cs - 1 = (n - 1) + cs := by omega
    rw [hsplit, Nat.add_div_right _ hcs]
    by_cases h : n % cs = 0
    · rw [h, if_pos rfl, Nat.add_zero]
      have hqpos : 0 < n / cs := by
        rcases Nat.eq_zero_or_pos (n / cs) with h0 | h0
        · rw [h0] at hq; omega
        · exact h0
      have hq1 : cs * (n / cs) = cs * (n / cs - 1) + cs := by
        calc cs * (n / cs) = cs * ((n / cs - 1) + 1) := by
              rw [Nat.sub_add_cancel hqpos]
        _ = cs * (n / cs - 1) + cs := by ring
      have hn1 : n - 1 = (cs - 1) + cs * (n / cs - 1) := by omega
      rw [hn1, Nat.add_mul_div_left _ _ hcs,
        Nat.div_eq_of_lt (Nat.sub_lt hcs Nat.one_pos), Nat.zero_add]
      omega
    · rw [if_neg h]
      have hrpos : 0 < n % cs := Nat.pos_of_ne_zero h
      have hn1 : n - 1 = (n % cs - 1) + cs * (n / cs) := by omega
      rw [hn1, Nat.add_mul_div_left _ _ hcs,
        Nat.div_eq_of_lt (by omega), Nat.zero_add]

theorem le_numChunks_mul (n cs : Nat) (hcs : 0 < cs) :
    n ≤ numChunks n cs * cs := by
  by_contra hlt
  push_neg at hlt
  have h2 : (numChunks n cs + 1) * cs ≤ n + cs - 1 := by
    have hsm : (numChunks n cs + 1) * cs = numChunks n cs * cs + cs := by ring
    omega
  have h3 : numChunks n cs + 1 ≤ (n + cs - 1) / cs :=
    (Nat.le_div_iff_mul_le hcs).mpr h2
  have h4 : (n + cs - 1) / cs = numChunks n cs := rfl
  omega

theorem mul_lt_of_lt_numChunks (n cs a : Nat) (hcs : 0 < cs)
    (ha : a < numChunks n cs) : a * cs < n := by
  have h1 : (a + 1) * cs ≤ n + cs - 1 :=
    (Nat.le_div_iff_mul_le hcs).mp ha
  have hsm : (a + 1) * cs = a * cs + cs := by ring
  omega

/-- Joining the chunk slices starting from chunk `a` recovers the tail of
the list from position `a * cs`. -/
theorem join_chunk_slices_from (l : List α) (cs : Nat) (hcs : 0 < cs) :
    ∀ (k a : Nat), a + k = numChunks l.length cs →
      ((List.range' a k).map
        fun i => slice l (i * cs) (min (i * cs + cs) l.length)).flatten
        = l.drop (a * cs) := by
  intro k
  induction k with
  | zero =>
    intro a ha
    simp only [List.range'_zero, List.map_nil, List.flatten_nil]
    have haq : a = numChunks l.length cs := by omega
    have h1 : l.length ≤ a * cs := by
      rw [haq]; exact le_numChunks_mul l.length cs hcs
    exact (List.drop_eq_nil_of_le h1).symm
  | succ k ih =>
    intro a ha
    rw [List.range'_succ, List.map_cons, List.flatten_cons,
      ih (a + 1) (by omega)]
    have hlt : a * cs < l.length :=
      mul_lt_of_lt_numChunks l.length cs a hcs (by omega)
    set s := a * cs with hs
    have hsucc : (a + 1) * cs = s + cs := by rw [hs]; ring
    rw [hsucc]
    unfold slice
    rcases le_or_lt (s + cs) l.length with hle | hgt
    · have hmin : min (s + cs) l.length = s + cs := Nat.min_eq_left hle
      rw [hmin, Nat.add_sub_cancel_left]
      have hdd : l.drop (s + cs) = (l.drop s).drop cs := by
        rw [List.drop_drop, Nat.add_comm]
      rw [hdd, List.take_append_drop]
    · have hmin : min (s + cs) l.length = l.length :=
        Nat.min_eq_right (le_of_lt hgt)
      rw [hmin]
      have hnil : l.drop (s + cs) = [] :=
        List.drop_eq_nil_of_le (by omega)
      rw [hnil, List.append_nil]
      have hlen : (l.drop s).length = l.length - s := List.length_drop s l
      exact List.take_of_length_le (by omega)

/-- Joining all chunk slices in chunk order recovers the original list. -/
theorem join_chunk_slices (l : List α) (cs : Nat) (hcs : 0 < cs) :
    ((List.range (numChunks l.length cs)).map
      fun i => slice l (i * cs) (min (i * cs + cs) l.length)).flatten = l := by
  rw [List.range_eq_range',
    join_chunk_slices_from l cs hcs (numChunks l.length cs) 0 (by omega)]
  simp

/-! Codec round-trip lemmas. -/

theorem decodeWords_word32ToBytes (w : Nat) (hw : w < 4294967296)
    (rest : List Nat) :
    decodeWords (word32ToBytes w ++ rest) = w :: decodeWords rest := by
  simp only [word32ToBytes, List.cons_append, List.nil_append, decodeWords,
    bytesToWord32]
  congr 1
  omega

theorem decodeWords_rowBytes (r : List Nat) (hr : ∀ x ∈ r, x < 4294967296)
    (rest : List Nat) :
    decodeWords (rowBytes r ++ rest) = r ++ decodeWords rest := by
  induction r with
  | nil => simp [rowBytes]
  | cons x xs ih =>
    simp only [rowBytes, List.map_cons, List.flatten_cons, List.append_assoc]
    rw [decodeWords_word32ToBytes x (hr x (List.mem_cons_self _ _)) _]
    simp only [List.cons_append]
    congr 1
    exact ih fun y hy => hr y (List.mem_cons_of_mem x hy)

theorem decodeWords_matrixBytes (rows : List (List Nat))
    (hb : ∀ r ∈ rows, ∀ x ∈ r, x < 4294967296) :
    decodeWords (matrixBytes rows) = rows.flatten := by
  induction rows with
  | nil => simp [matrixBytes, decodeWords]
  | cons r rs ih =>
    simp only [matrixBytes, List.map_cons, List.flatten_cons]
    rw [decodeWords_rowBytes r (hb r (List.mem_cons_self _ _))]
    congr 1
    exact ih fun q hq x hx => hb q (List.mem_cons_of_mem r hq) x hx

theorem groupRows_flatten (D : Nat) (hD : 0 < D) (rows : List (List Nat))
    (hlen : ∀ r ∈ rows, r.length = D) :
    groupRows D rows.flatten = rows := by
  induction rows with
  | nil => simp [groupRows]
  | cons r rs ih =>
    have hrD : r.length = D := hlen r (List.mem_cons_self _ _)
    have hne : ¬(r ++ rs.flatten = [] ∨ D = 0) := by
      push_neg
      constructor
      · intro hcontra
        have : r = [] := (List.append_eq_nil.mp hcontra).1
        rw [this] at hrD
        simp at hrD
        omega
      · omega
    rw [List.flatten_cons, groupRows, dif_neg hne]
    have htake : (r ++ rs.flatten).take D = r := by
      rw [← hrD, List.take_left]
    have hdrop : (r ++ rs.flatten).drop D = rs.flatten := by
      rw [← hrD, List.drop_left]
    rw [htake, hdrop,
      ih fun q hq => hlen q (List.mem_cons_of_mem r hq)]

/-! Determinism support: erasing the timestamp from a run's artifacts. -/

/-- Script 2's manifest with the `created_at` field blanked. -/
def scrubCreatedAt (m : Metadata2) : Metadata2 := { m with created_at := "" }

/-- A write event with any manifest timestamp blanked. -/
def scrubEvent2 : WriteEvent2 → WriteEvent2
  | .chunkFile n b => .chunkFile n b
  | .manifest m => .manifest (scrubCreatedAt m)

/-- The chunk binary files (name, bytes) produced by a run. -/
def chunkFileWrites2 : List WriteEvent2 → List (String × List Nat)
  | [] => []
  | .chunkFile n b :: rest => (n, b) :: chunkFileWrites2 rest
  | .manifest _ :: rest => chunkFileWrites2 rest

/-! Concrete inputs used by witnesses and counterexamples. -/

/-- The spec's own scenario: `keywords=["a","b","c"]`, `D=2`,
`chunk_size=2`. -/
def dbScenario : Database :=
  { keywords := ["a", "b", "c"], dim := 2, rows := [[1, 2], [3, 4], [5, 6]] }

/-- A run of script 1 with 101 chunks (`chunk_size = 1`): chunk ids 0..100,
so `f"{idx:02d}"` stops padding at id 100. -/
def dbManyChunks : Database :=
  { keywords := List.replicate 101 "k", dim := 1,
    rows := List.replicate 101 [0] }

/-- A store holding one pickle whose embedding matrix has 1 row and 2
columns, next to 1 keyword: row count matches, column count is not 384. -/
def fsDimMismatch : String → Option PickleContainer := fun p =>
  if p = "db.pkl" then
    some { keywords := some ["a"], embeddings := some ⟨1, 2, [[0, 0]]⟩ }
  else none

/-- A store holding one well-shaped pickle: 1 keyword, a 1 by 384 matrix. -/
def fsGood : String → Option PickleContainer := fun p =>
  if p = "db.pkl" then
    some { keywords := some ["a"],
           embeddings := some ⟨1, 384, [List.replicate 384 0]⟩ }
  else none

/-! Helper lemmas. -/

theorem rowBytes_length (r : List Nat) : (rowBytes r).length = r.length * 4 := by
  induction r with
  | nil => rfl
  | cons x xs ih =>
    simp only [rowBytes, List.map_cons, List.flatten_cons, List.length_append,
      List.length_cons] at *
    simp only [word32ToBytes, List.length_cons, List.length_nil]
    omega

theorem matrixBytes_length (rows : List (List Nat)) (D : Nat)
    (h : ∀ r ∈ rows, r.length = D) :
    (matrixBytes rows).length = rows.length * D * 4 := by
  induction rows with
  | nil => simp [matrixBytes]
  | cons r rs ih =>
    simp only [matrixBytes, List.map_cons, List.flatten_cons, List.length_append,
      List.length_cons]
    rw [rowBytes_length, h r (List.mem_cons_self _ _)]
    have hrs := ih fun q hq => h q (List.mem_cons_of_mem r hq)
    simp only [matrixBytes] at hrs
    rw [hrs]
    ring

theorem slice_length (l : List α) (s e : Nat) :
    (slice l s e).length = min (e - s) (l.length - s) := by
  simp [slice, List.length_take, List.length_drop]

theorem slice_subset (l : List α) (s e : Nat) : slice l s e ⊆ l :=
  fun _x hx => List.drop_subset s l (List.take_subset _ _ hx)

theorem map_getD_range (l : List α) (d : α) :
    (List.range l.length).map (fun g => l.getD g d) = l := by
  induction l with
  | nil => rfl
  | cons x xs ih =>
    rw [List.length_cons, List.range_succ_eq_map, List.map_cons, List.map_map]
    show x :: ((List.range xs.length).map fun g => xs.getD g d) = x :: xs
    rw [ih]

theorem padZeros_length (w n : Nat) :
    (padZeros w n).length = max w (Nat.repr n).length := by
  have h1 : (String.mk (List.replicate (w - (Nat.repr n).length) '0')).length
      = w - (Nat.repr n).length := List.length_replicate _ _
  rw [padZeros, String.length_append, h1]
  omega

theorem repr_length_le_two : ∀ i, i < 100 → (Nat.repr i).length ≤ 2 := by decide

set_option maxRecDepth 4096 in
theorem repr_length_le_three : ∀ i, i < 1000 → (Nat.repr i).length ≤ 3 := by
  decide

theorem flatten_map_matrixBytes (L : List (List (List Nat))) :
    (L.map matrixBytes).flatten = matrixBytes L.flatten := by
  unfold matrixBytes
  rw [List.map_flatten, List.flatten_flatten, List.map_map]
  rfl

theorem flatten_chunkBytes (db : Database) (cs : Nat) (hcs : 0 < cs)
    (hlen : db.rows.length = db.keywords.length) :
    ((List.range (numChunks db.keywords.length cs)).map (chunkBytes db cs)).flatten
      = matrixBytes db.rows := by
  have hmap : (List.range (numChunks db.keywords.length cs)).map (chunkBytes db cs)
      = ((List.range (numChunks db.rows.length cs)).map
          fun i => slice db.rows (i * cs) (min (i * cs + cs) db.rows.length)).map
          matrixBytes := by
    rw [hlen, List.map_map]
    apply List.map_congr_left
    intro i _
    simp [chunkBytes, Function.comp, hlen]
  rw [hmap, flatten_map_matrixBytes, join_chunk_slices db.rows cs hcs]

theorem chunkIndexEntries_eq (kws : List String) (cs a : Nat) (hcs : 0 < cs) :
    chunkIndexEntries kws cs a
      = (List.range' (a * cs) (min (a * cs + cs) kws.length - a * cs)).map
          fun g => { keyword := kws.getD g "", chunk_id := g / cs,
                     local_index := g % cs } := by
  unfold chunkIndexEntries
  rw [List.range'_eq_map_range, List.map_map]
  apply List.map_congr_left
  intro j hj
  have hj2 : j < cs := by
    have hm := List.mem_range.mp hj
    have hmin : min (a * cs + cs) kws.length ≤ a * cs + cs := Nat.min_le_left _ _
    omega
  simp only [Function.comp]
  have hdiv : (a * cs + j) / cs = a := by
    rw [Nat.mul_comm a cs, Nat.mul_add_div hcs, Nat.div_eq_of_lt hj2,
      Nat.add_zero]
  have hmod : (a * cs + j) % cs = j := by
    rw [Nat.mul_comm a cs, Nat.mul_add_mod, Nat.mod_eq_of_lt hj2]
  rw [hdiv, hmod]

theorem keywordIndex2_from (kws : List String) (cs : Nat) (hcs : 0 < cs) :
    ∀ (k a : Nat), a + k = numChunks kws.length cs →
      ((List.range' a k).map (chunkIndexEntries kws cs)).flatten
        = (List.range' (a * cs) (kws.length - a * cs)).map
            fun g => { keyword := kws.getD g "", chunk_id := g / cs,
                       local_index := g % cs } := by
  intro k
  induction k with
  | zero =>
    intro a ha
    have haq : a = numChunks kws.length cs := by omega
    have h1 : kws.length ≤ a * cs := by
      rw [haq]; exact le_numChunks_mul kws.length cs hcs
    have h2 : kws.length - a * cs = 0 := by omega
    rw [h2]
    simp [List.range'_zero]
  | succ k ih =>
    intro a ha
    rw [List.range'_succ, List.map_cons, List.flatten_cons, ih (a + 1) (by omega),
      chunkIndexEntries_eq kws cs a hcs]
    have hlt : a * cs < kws.length :=
      mul_lt_of_lt_numChunks kws.length cs a hcs (by omega)
    have hsucc : (a + 1) * cs = a * cs + cs := by ring
    rw [hsucc]
    rcases le_or_lt (a * cs + cs) kws.length with hle | hgt
    · have hmin : min (a * cs + cs) kws.length = a * cs + cs :=
        Nat.min_eq_left hle
      rw [hmin]
      have harr : a * cs + cs - a * cs = cs := by omega
      have hsplit : kws.length - a * cs = (kws.length - (a * cs + cs)) + cs := by
        omega
      rw [harr, hsplit, ← List.range'_append_1, List.map_append]
    · have hmin : min (a * cs + cs) kws.length = kws.length :=
        Nat.min_eq_right (le_of_lt hgt)
      have h0 : kws.length - (a * cs + cs) = 0 := by omega
      rw [hmin, h0]
      simp [List.range'_zero]

theorem keywordIndex2_eq_map_range (kws : List String) (cs : Nat) (hcs : 0 < cs) :
    keywordIndex2 kws cs = (List.range kws.length).map
      fun g => { keyword := kws.getD g "", chunk_id := g / cs,
                 local_index := g % cs } := by
  unfold keywordIndex2
  rw [List.range_eq_range',
    keywordIndex2_from kws cs hcs (numChunks kws.length cs) 0 (by omega)]
  rw [List.range_eq_range', Nat.zero_mul, Nat.sub_zero]

theorem chunkFileWrites2_append_manifest (A : List WriteEvent2) (m : Metadata2) :
    chunkFileWrites2 (A ++ [WriteEvent2.manifest m]) = chunkFileWrites2 A := by
  induction A with
  | nil => rfl
  | cons e rest ih =>
    cases e with
    | chunkFile n b =>
      show (n, b) :: chunkFileWrites2 (rest ++ [WriteEvent2.manifest m])
        = (n, b) :: chunkFileWrites2 rest
      rw [ih]
    | manifest m2 =>
      show chunkFileWrites2 (rest ++ [WriteEvent2.manifest m])
        = chunkFileWrites2 rest
      exact ih

/-! Claim theorems. -/

/-- Claim C1 (confirmed): for every well-formed KeywordVectorSet and every
`chunk_size > 0` (with a positive embedding dimension, without which the
grouping of a byte stream into rows of `D` is not defined), reading back
all chunk binaries in `chunk_id` order, decoding each as consecutive
little-endian float32 words and grouping into rows of `D`, reconstructs
the original matrix exactly. -/
theorem chunked_export_round_trip (db : Database) (cs : Nat) (hcs : 0 < cs)
    (hwf : DatabaseWF db) (hdim : 0 < db.dim) :
    groupRows db.dim (decodeWords
      (((List.range (numChunks db.keywords.length cs)).map
        (chunkBytes db cs)).flatten)) = db.rows := by
  obtain ⟨hlen, hrow, hbnd⟩ := hwf
  rw [flatten_chunkBytes db cs hcs hlen, decodeWords_matrixBytes db.rows hbnd,
    groupRows_flatten db.dim hdim db.rows hrow]

/-- Witness: the round-trip theorem applied at the spec's own scenario. -/
theorem chunked_export_round_trip_witness :
    (0 < 2 ∧ DatabaseWF dbScenario ∧ 0 < dbScenario.dim) ∧
    groupRows dbScenario.dim (decodeWords
      (((List.range (numChunks dbScenario.keywords.length 2)).map
        (chunkBytes dbScenario 2)).flatten)) = dbScenario.rows :=
  ⟨⟨by decide, by decide, by decide⟩,
   chunked_export_round_trip dbScenario 2 (by decide) (by decide) (by decide)⟩

/-- Claim C2 (confirmed): every chunk file written by the chunked exporter
is exactly the chunk's embedding rows serialized row-major as consecutive
4-byte little-endian float32 values — nothing else — so its byte length is
exactly `keyword_count * D * 4`. -/
theorem chunk_file_exact_bytes (db : Database) (cs : Nat) (hwf : DatabaseWF db) :
    ∀ i < numChunks db.keywords.length cs,
      chunkBytes db cs i =
        ((slice db.rows (i * cs) (min (i * cs + cs) db.keywords.length)).map
          rowBytes).flatten
      ∧ (chunkBytes db cs i).length
          = (mkChunkInfo1 db cs i).keyword_count * db.dim * 4 := by
  intro i _hi
  obtain ⟨hlen, hrow, _⟩ := hwf
  refine ⟨rfl, ?_⟩
  unfold chunkBytes
  rw [matrixBytes_length _ db.dim
    (fun r hr => hrow r (slice_subset db.rows _ _ hr))]
  have hkc : (mkChunkInfo1 db cs i).keyword_count
      = (slice db.keywords (i * cs)
          (min (i * cs + cs) db.keywords.length)).length := rfl
  rw [hkc, slice_length, slice_length, hlen]

/-- Witness: byte-length law for chunk 1 of the spec's scenario
(1 row of 2 floats: 8 bytes). -/
theorem chunk_file_exact_bytes_witness :
    (DatabaseWF dbScenario ∧ 1 < numChunks dbScenario.keywords.length 2) ∧
    (chunkBytes dbScenario 2 1).length
      = (mkChunkInfo1 dbScenario 2 1).keyword_count * dbScenario.dim * 4 :=
  ⟨⟨by decide, by decide⟩,
   (chunk_file_exact_bytes dbScenario 2 (by decide) 1 (by decide)).2⟩

/-- Claim C3 (confirmed): the exporter emits `ceil(N / chunk_size)` chunks
whose keyword counts sum to `N`; `N = 0` gives no chunks and
`total_keywords = 0`; `N` divisible by `chunk_size` gives no short final
chunk; `N ≡ 1 (mod chunk_size)` gives a final chunk of size 1. -/
theorem chunk_count_partition (db : Database) (cs : Nat) (hcs : 0 < cs) :
    (metadata1 db cs).num_chunks = ceilNat db.keywords.length cs
    ∧ ((metadata1 db cs).chunks.map ChunkInfo.keyword_count).sum
        = db.keywords.length
    ∧ (db.keywords.length = 0 →
        (metadata1 db cs).chunks = [] ∧ (metadata1 db cs).total_keywords = 0)
    ∧ (db.keywords.length % cs = 0 →
        ∀ c ∈ (metadata1 db cs).chunks, c.keyword_count = cs)
    ∧ (db.keywords.length % cs = 1 →
        ∀ c, (metadata1 db cs).chunks.getLast? = some c →
          c.keyword_count = 1) := by
  refine ⟨numChunks_eq_ceilNat db.keywords.length cs hcs, ?_, ?_, ?_, ?_⟩
  · show (((List.range (numChunks db.keywords.length cs)).map
      (mkChunkInfo1 db cs)).map ChunkInfo.keyword_count).sum = db.keywords.length
    rw [List.map_map]
    have hfun : (ChunkInfo.keyword_count ∘ mkChunkInfo1 db cs)
        = fun i => (slice db.keywords (i * cs)
            (min (i * cs + cs) db.keywords.length)).length := rfl
    rw [hfun]
    have hml : (List.range (numChunks db.keywords.length cs)).map
        (fun i => (slice db.keywords (i * cs)
          (min (i * cs + cs) db.keywords.length)).length)
        = ((List.range (numChunks db.keywords.length cs)).map
            (fun i => slice db.keywords (i * cs)
              (min (i * cs + cs) db.keywords.length))).map List.length := by
      rw [List.map_map]
      rfl
    rw [hml, ← List.length_flatten, join_chunk_slices db.keywords cs hcs]
  · intro h0
    have hnc : numChunks db.keywords.length cs = 0 := by
      unfold numChunks
      rw [h0, Nat.zero_add]
      exact Nat.div_eq_of_lt (by omega)
    constructor
    · show (List.range (numChunks db.keywords.length cs)).map
        (mkChunkInfo1 db cs) = []
      rw [hnc]
      rfl
    · exact h0
  · intro hdvd c hc
    obtain ⟨i, hi, rfl⟩ := List.mem_map.mp hc
    have hi2 : i < numChunks db.keywords.length cs := List.mem_range.mp hi
    have hnc : numChunks db.keywords.length cs = db.keywords.length / cs := by
      rw [numChunks_eq_ceilNat db.keywords.length cs hcs]
      unfold ceilNat
      rw [hdvd]
      simp
    have hdv : cs ∣ db.keywords.length := Nat.dvd_of_mod_eq_zero hdvd
    have hmulc : db.keywords.length / cs * cs = db.keywords.length :=
      Nat.div_mul_cancel hdv
    have hle2 : i * cs + cs ≤ db.keywords.length := by
      have h1 : i + 1 ≤ db.keywords.length / cs := by omega
      have h2 : (i + 1) * cs ≤ db.keywords.length / cs * cs :=
        Nat.mul_le_mul_right cs h1
      have h3 : (i + 1) * cs = i * cs + cs := by ring
      omega
    show (slice db.keywords (i * cs)
      (min (i * cs + cs) db.keywords.length)).length = cs
    rw [slice_length, Nat.min_eq_left hle2]
    omega
  · intro hmod c hc
    have hq := Nat.div_add_mod db.keywords.length cs
    have hcomm : cs * (db.keywords.length / cs)
        = db.keywords.length / cs * cs := Nat.mul_comm _ _
    have hnc : numChunks db.keywords.length cs
        = db.keywords.length / cs + 1 := by
      rw [numChunks_eq_ceilNat db.keywords.length cs hcs]
      unfold ceilNat
      rw [hmod]
      simp
    have hchunks : (metadata1 db cs).chunks
        = ((List.range (db.keywords.length / cs)).map (mkChunkInfo1 db cs))
          ++ [mkChunkInfo1 db cs (db.keywords.length / cs)] := by
      show (List.range (numChunks db.keywords.length cs)).map
        (mkChunkInfo1 db cs) = _
      rw [hnc, List.range_succ, List.map_append, List.map_cons, List.map_nil]
    rw [hchunks, List.getLast?_concat] at hc
    have hceq : c = mkChunkInfo1 db cs (db.keywords.length / cs) :=
      (Option.some.inj hc).symm
    subst hceq
    show (slice db.keywords (db.keywords.length / cs * cs)
      (min (db.keywords.length / cs * cs + cs) db.keywords.length)).length = 1
    rw [slice_length]
    omega

/-- Witness: chunk partition facts at the spec's scenario (`N = 3`,
`chunk_size = 2`). -/
theorem chunk_count_partition_witness :
    (0 < 2) ∧ (metadata1 dbScenario 2).num_chunks = ceilNat 3 2
    ∧ ((metadata1 dbScenario 2).chunks.map ChunkInfo.keyword_count).sum = 3 :=
  ⟨by decide, (chunk_count_partition dbScenario 2 (by decide)).1,
   (chunk_count_partition dbScenario 2 (by decide)).2.1⟩

/-- Claim C4 (confirmed): manifest chunk records are in ascending
`chunk_id` order; concatenating the per-chunk keyword lists in that order
(script 1), or reading the flat per-keyword index in order (script 2),
yields the original keyword sequence. -/
theorem keyword_order_preserved (db : Database) (cs : Nat) (hcs : 0 < cs) :
    List.Pairwise (· < ·) ((metadata1 db cs).chunks.map ChunkInfo.chunk_id)
    ∧ ((metadata1 db cs).chunks.map ChunkInfo.keywords).flatten = db.keywords
    ∧ (keywordIndex2 db.keywords cs).map KeywordIndexEntry.keyword
        = db.keywords := by
  refine ⟨?_, ?_, ?_⟩
  · show List.Pairwise (· < ·)
      (((List.range (numChunks db.keywords.length cs)).map
        (mkChunkInfo1 db cs)).map ChunkInfo.chunk_id)
    rw [List.map_map]
    have hfun : (ChunkInfo.chunk_id ∘ mkChunkInfo1 db cs) = id := rfl
    rw [hfun, List.map_id]
    exact List.pairwise_lt_range _
  · show (((List.range (numChunks db.keywords.length cs)).map
      (mkChunkInfo1 db cs)).map ChunkInfo.keywords).flatten = db.keywords
    rw [List.map_map]
    have hfun : (ChunkInfo.keywords ∘ mkChunkInfo1 db cs)
        = fun i => slice db.keywords (i * cs)
            (min (i * cs + cs) db.keywords.length) := rfl
    rw [hfun]
    exact join_chunk_slices db.keywords cs hcs
  · rw [keywordIndex2_eq_map_range db.keywords cs hcs, List.map_map]
    have hfun : (KeywordIndexEntry.keyword ∘ fun g =>
        ({ keyword := db.keywords.getD g "", chunk_id := g / cs,
           local_index := g % cs } : KeywordIndexEntry))
        = fun g => db.keywords.getD g "" := rfl
    rw [hfun]
    exact map_getD_range db.keywords ""

/-- Witness: keyword order preservation at the spec's scenario. -/
theorem keyword_order_preserved_witness :
    (0 < 2) ∧ ((metadata1 dbScenario 2).chunks.map ChunkInfo.keywords).flatten
      = dbScenario.keywords :=
  ⟨by decide, (keyword_order_preserved dbScenario 2 (by decide)).2.1⟩

/-- Claim C5 counterexample: a pickle whose `keywords` and `embeddings`
fields are both present and whose embedding row count equals the keyword
count still fails the loader, because the loader also requires exactly
`EMBEDDING_DIM` columns; the claim's characterization of the format
failure is therefore not an equivalence. -/
theorem loader_counterexample :
    fsDimMismatch "db.pkl"
      = some { keywords := some ["a"], embeddings := some ⟨1, 2, [[0, 0]]⟩ }
    ∧ (1 : Nat) = (["a"] : List String).length
    ∧ loadDatabase2 fsDimMismatch "db.pkl" = .error .FormatError :=
  ⟨rfl, rfl, rfl⟩

/-- Claim C5 amended: the loader fails with `NotFoundError` exactly when
the path is absent; it fails with `FormatError` exactly when a required
field is missing or the embedding shape differs from
`(len(keywords), EMBEDDING_DIM)` — the column count is checked as well as
the row count; otherwise it returns the data unchanged. -/
theorem loadDatabase2_none (fs : String → Option PickleContainer)
    (path : String) (hfs : fs path = none) :
    loadDatabase2 fs path = .error .NotFoundError := by
  unfold loadDatabase2
  rw [hfs]

theorem loadDatabase2_missing (fs : String → Option PickleContainer)
    (path : String) (ck : Option (List String)) (ce : Option NDMatrix)
    (hfs : fs path = some ⟨ck, ce⟩) (hmiss : ck = none ∨ ce = none) :
    loadDatabase2 fs path = .error .FormatError := by
  unfold loadDatabase2
  rw [hfs]
  rcases hmiss with hk | he
  · subst hk
    cases ce <;> rfl
  · subst he
    cases ck <;> rfl

theorem loadDatabase2_of_some (fs : String → Option PickleContainer)
    (path : String) (emb : NDMatrix) (kws : List String)
    (hfs : fs path = some ⟨some kws, some emb⟩) :
    loadDatabase2 fs path =
      if emb.nrows = kws.length ∧ emb.ncols = EMBEDDING_DIM then
        .ok { keywords := kws, dim := emb.ncols, rows := emb.entries }
      else .error .FormatError := by
  unfold loadDatabase2
  rw [hfs]

theorem loader_error_characterization (fs : String → Option PickleContainer)
    (path : String) :
    (loadDatabase2 fs path = .error .NotFoundError ↔ fs path = none)
    ∧ (∀ c, fs path = some c →
        (loadDatabase2 fs path = .error .FormatError ↔
          c.keywords = none ∨ c.embeddings = none ∨
          (∃ kws emb, c.keywords = some kws ∧ c.embeddings = some emb ∧
            ¬(emb.nrows = kws.length ∧ emb.ncols = EMBEDDING_DIM))))
    ∧ (∀ c kws emb, fs path = some c → c.keywords = some kws →
        c.embeddings = some emb → emb.nrows = kws.length →
        emb.ncols = EMBEDDING_DIM →
        loadDatabase2 fs path
          = .ok { keywords := kws, dim := emb.ncols, rows := emb.entries }) := by
  refine ⟨?_, ?_, ?_⟩
  · cases hfs : fs path with
    | none =>
      rw [loadDatabase2_none fs path hfs]
      simp
    | some c =>
      obtain ⟨ck, ce⟩ := c
      cases ce with
      | none =>
        rw [loadDatabase2_missing fs path ck none hfs (Or.inr rfl)]
        simp
      | some emb =>
        cases ck with
        | none =>
          rw [loadDatabase2_missing fs path none (some emb) hfs (Or.inl rfl)]
          simp
        | some kws =>
          rw [loadDatabase2_of_some fs path emb kws hfs]
          by_cases hcond : emb.nrows = kws.length ∧ emb.ncols = EMBEDDING_DIM
          · rw [if_pos hcond]; simp
          · rw [if_neg hcond]; simp
  · intro c hfs
    obtain ⟨ck, ce⟩ := c
    cases ce with
    | none =>
      rw [loadDatabase2_missing fs path ck none hfs (Or.inr rfl)]
      simp
    | some emb =>
      cases ck with
      | none =>
        rw [loadDatabase2_missing fs path none (some emb) hfs (Or.inl rfl)]
        simp
      | some kws =>
        rw [loadDatabase2_of_some fs path emb kws hfs]
        by_cases hcond : emb.nrows = kws.length ∧ emb.ncols = EMBEDDING_DIM
        · rw [if_pos hcond]
          simp [hcond]
        · rw [if_neg hcond]
          constructor
          · intro _
            exact Or.inr (Or.inr ⟨kws, emb, rfl, rfl, hcond⟩)
          · intro _
            rfl
  · intro c kws emb hfs hkw hemb h1 h2
    obtain ⟨ck, ce⟩ := c
    have hkw2 : ck = some kws := hkw
    have hemb2 : ce = some emb := hemb
    subst hkw2
    subst hemb2
    rw [loadDatabase2_of_some fs path emb kws hfs, if_pos ⟨h1, h2⟩]

/-- Witness: a well-shaped pickle (1 keyword, 1 by 384 matrix) loads
successfully and unchanged. -/
theorem loader_error_characterization_witness :
    loadDatabase2 fsGood "db.pkl"
      = .ok { keywords := ["a"], dim := 384,
              rows := [List.replicate 384 0] } :=
  (loader_error_characterization fsGood "db.pkl").2.2
    { keywords := some ["a"],
      embeddings := some ⟨1, 384, [List.replicate 384 0]⟩ }
    ["a"] ⟨1, 384, [List.replicate 384 0]⟩ rfl rfl rfl rfl rfl

/-- Claim C6 (confirmed): both exporters write the manifest strictly after
every chunk file: if the manifest write is among the first `k` completed
writes of a run, then so is every chunk file it references — so a run that
fails before completion leaves no manifest behind. -/
theorem manifest_written_after_chunks (db : Database) (cs : Nat) (k : Nat) :
    (WriteEvent1.manifest (metadata1 db cs) ∈ (exportTrace1 db cs).take k →
      ∀ c ∈ (metadata1 db cs).chunks,
        WriteEvent1.chunkFile c.filename (chunkBytes db cs c.chunk_id)
          ∈ (exportTrace1 db cs).take k)
    ∧ (∀ now, WriteEvent2.manifest (metadata2 db cs now)
          ∈ (exportTrace2 db cs now).take k →
        ∀ c ∈ (metadata2 db cs now).chunks,
          WriteEvent2.chunkFile c.file_path (chunkBytes db cs c.chunk_id)
            ∈ (exportTrace2 db cs now).take k) := by
  constructor
  · intro hm c hc
    have htr : exportTrace1 db cs
        = ((List.range (numChunks db.keywords.length cs)).map
            fun i => WriteEvent1.chunkFile (chunkFilename1 i) (chunkBytes db cs i))
          ++ [WriteEvent1.manifest (metadata1 db cs)] := rfl
    rcases le_or_lt k ((List.range (numChunks db.keywords.length cs)).map
        fun i => WriteEvent1.chunkFile (chunkFilename1 i)
          (chunkBytes db cs i)).length with hk | hk
    · exfalso
      rw [htr, List.take_append_of_le_length hk] at hm
      have hmA := List.take_subset _ _ hm
      obtain ⟨i, _, hieq⟩ := List.mem_map.mp hmA
      exact absurd hieq (by simp)
    · have hlen : (exportTrace1 db cs).length ≤ k := by
        rw [htr, List.length_append, List.length_cons, List.length_nil]
        omega
      rw [List.take_of_length_le hlen, htr]
      apply List.mem_append_left
      obtain ⟨i, hi, rfl⟩ := List.mem_map.mp hc
      exact List.mem_map.mpr ⟨i, hi, rfl⟩
  · intro now hm c hc
    have htr : exportTrace2 db cs now
        = ((List.range (numChunks db.keywords.length cs)).map
            fun i => WriteEvent2.chunkFile (chunkFilename2 i) (chunkBytes db cs i))
          ++ [WriteEvent2.manifest (metadata2 db cs now)] := rfl
    rcases le_or_lt k ((List.range (numChunks db.keywords.length cs)).map
        fun i => WriteEvent2.chunkFile (chunkFilename2 i)
          (chunkBytes db cs i)).length with hk | hk
    · exfalso
      rw [htr, List.take_append_of_le_length hk] at hm
      have hmA := List.take_subset _ _ hm
      obtain ⟨i, _, hieq⟩ := List.mem_map.mp hmA
      exact absurd hieq (by simp)
    · have hlen : (exportTrace2 db cs now).length ≤ k := by
        rw [htr, List.length_append, List.length_cons, List.length_nil]
        omega
      rw [List.take_of_length_le hlen, htr]
      apply List.mem_append_left
      obtain ⟨i, hi, rfl⟩ := List.mem_map.mp hc
      exact List.mem_map.mpr ⟨i, hi, rfl⟩

/-- Witness: for the spec's scenario run (2 chunk files + manifest, so 3
writes), a prefix containing the manifest contains both chunk files. -/
theorem manifest_written_after_chunks_witness :
    (WriteEvent1.manifest (metadata1 dbScenario 2)
      ∈ (exportTrace1 dbScenario 2).take 3)
    ∧ (∀ c ∈ (metadata1 dbScenario 2).chunks,
        WriteEvent1.chunkFile c.filename (chunkBytes dbScenario 2 c.chunk_id)
          ∈ (exportTrace1 dbScenario 2).take 3) :=
  ⟨by decide, (manifest_written_after_chunks dbScenario 2 3).1 (by decide)⟩

/-- Claim C7 counterexample: with one keyword and `chunk_size = 2000`,
script 2's sole manifest record stores `end_index = 0`, not the exclusive
end `min(start_index + chunk_size, N) = 1` the claim asserts. -/
theorem chunk_record_end_index_counterexample :
    (metadata2 ⟨["a"], 1, [[0]]⟩ 2000 "t").chunks
      = [{ chunk_id := 0, start_index := 0, end_index := 0,
           keyword_count := 1, file_path := "chunk_000.bin" }]
    ∧ min (0 + 2000) 1 = 1
    ∧ (0 : Nat) ≠ 1 := by
  refine ⟨by decide, by decide, by decide⟩

/-- Claim C7 amended: script 1 records the exclusive end
`min(start + chunk_size, N)` in `end_index`, but script 2 records the
inclusive end, one less; in both, `start_index = chunk_id * chunk_size`
and `keyword_count` is the size of the half-open slice
`[start, min(start + chunk_size, N))`. -/
theorem chunk_record_indices (db : Database) (cs : Nat) :
    (∀ c ∈ (metadata1 db cs).chunks,
      c.start_index = c.chunk_id * cs
      ∧ c.end_index = min (c.start_index + cs) db.keywords.length
      ∧ c.keyword_count = c.end_index - c.start_index)
    ∧ (∀ now, ∀ c ∈ (metadata2 db cs now).chunks,
      c.start_index = c.chunk_id * cs
      ∧ c.end_index = min (c.start_index + cs) db.keywords.length - 1
      ∧ c.keyword_count
          = min (c.start_index + cs) db.keywords.length - c.start_index) := by
  constructor
  · intro c hc
    obtain ⟨i, _, rfl⟩ := List.mem_map.mp hc
    refine ⟨rfl, rfl, ?_⟩
    show (slice db.keywords (i * cs)
      (min (i * cs + cs) db.keywords.length)).length = _
    rw [slice_length]
    show min (min (i * cs + cs) db.keywords.length - i * cs)
      (db.keywords.length - i * cs)
      = (mkChunkInfo1 db cs i).end_index - (mkChunkInfo1 db cs i).start_index
    have hend : (mkChunkInfo1 db cs i).end_index
        = min (i * cs + cs) db.keywords.length := rfl
    have hst : (mkChunkInfo1 db cs i).start_index = i * cs := rfl
    rw [hend, hst]
    omega
  · intro now c hc
    obtain ⟨i, _, rfl⟩ := List.mem_map.mp hc
    exact ⟨rfl, rfl, rfl⟩

/-- Witness: the amended index laws at chunk 1 of the spec's scenario. -/
theorem chunk_record_indices_witness :
    ((mkChunkInfo1 dbScenario 2 1) ∈ (metadata1 dbScenario 2).chunks)
    ∧ ((mkChunkInfo1 dbScenario 2 1).end_index
        = min ((mkChunkInfo1 dbScenario 2 1).start_index + 2)
            dbScenario.keywords.length) :=
  ⟨by decide, ((chunk_record_indices dbScenario 2).1 _ (by decide)).2.1⟩

/-- Claim C8 counterexample: in one script-1 run with 101 chunks
(`chunk_size = 1`, 101 keywords), chunk 0 is written as `chunk_00.bin`
(numeral width 2) while chunk 100 is written as `chunk_100.bin` (numeral
width 3): no single fixed width covers every chunk of the run, and the two
scripts moreover pad to different minimum widths (2 versus 3). -/
theorem chunk_filename_width_counterexample :
    ((metadata1 dbManyChunks 1).chunks.map ChunkInfo.filename).getD 0 ""
      = "chunk_00.bin"
    ∧ ((metadata1 dbManyChunks 1).chunks.map ChunkInfo.filename).getD 100 ""
      = "chunk_100.bin"
    ∧ "chunk_00.bin".length ≠ "chunk_100.bin".length := by
  refine ⟨by decide, by decide, by decide⟩

/-- Claim C8 amended: chunk files are named `chunk_<NNN>.bin` where `<NNN>`
is the chunk id zero-padded to a minimum width — 2 in script 1 and 3 in
script 2 — so the width is the same for every chunk only while ids fit
(below 100, resp. 1000); the name recorded in the manifest is exactly the
name of the file written. -/
theorem chunk_filename_format (db : Database) (cs : Nat) :
    (∀ c ∈ (metadata1 db cs).chunks,
      c.filename = "chunk_" ++ padZeros 2 c.chunk_id ++ ".bin"
      ∧ WriteEvent1.chunkFile c.filename (chunkBytes db cs c.chunk_id)
          ∈ exportTrace1 db cs
      ∧ (c.chunk_id < 100 → (padZeros 2 c.chunk_id).length = 2))
    ∧ (∀ now, ∀ c ∈ (metadata2 db cs now).chunks,
      c.file_path = "chunk_" ++ padZeros 3 c.chunk_id ++ ".bin"
      ∧ WriteEvent2.chunkFile c.file_path (chunkBytes db cs c.chunk_id)
          ∈ exportTrace2 db cs now
      ∧ (c.chunk_id < 1000 → (padZeros 3 c.chunk_id).length = 3)) := by
  constructor
  · intro c hc
    obtain ⟨i, hi, rfl⟩ := List.mem_map.mp hc
    refine ⟨rfl, ?_, ?_⟩
    · show WriteEvent1.chunkFile (chunkFilename1 i) (chunkBytes db cs i)
        ∈ exportTrace1 db cs
      apply List.mem_append_left
      exact List.mem_map.mpr ⟨i, hi, rfl⟩
    · intro hlt
      have hlt2 : i < 100 := hlt
      show (padZeros 2 i).length = 2
      rw [padZeros_length]
      have hle := repr_length_le_two i hlt2
      omega
  · intro now c hc
    obtain ⟨i, hi, rfl⟩ := List.mem_map.mp hc
    refine ⟨rfl, ?_, ?_⟩
    · show WriteEvent2.chunkFile (chunkFilename2 i) (chunkBytes db cs i)
        ∈ exportTrace2 db cs now
      apply List.mem_append_left
      exact List.mem_map.mpr ⟨i, hi, rfl⟩
    · intro hlt
      have hlt2 : i < 1000 := hlt
      show (padZeros 3 i).length = 3
      rw [padZeros_length]
      have hle := repr_length_le_three i hlt2
      omega

/-- Witness: the amended filename laws at chunk 0 of the spec's
scenario. -/
theorem chunk_filename_format_witness :
    ((mkChunkInfo1 dbScenario 2 0) ∈ (metadata1 dbScenario 2).chunks)
    ∧ (padZeros 2 (mkChunkInfo1 dbScenario 2 0).chunk_id).length = 2 :=
  ⟨by decide,
   ((chunk_filename_format dbScenario 2).1 _ (by decide)).2.2 (by decide)⟩

/-- Claim C9 (confirmed): the export is deterministic. Script 1's run is a
pure function of the database and chunk size; script 2's run depends
additionally only on the captured timestamp, and two runs with different
timestamps produce identical chunk files and manifests identical apart
from `created_at`. -/
theorem export_deterministic (db : Database) (cs : Nat) (t1 t2 : String) :
    chunkFileWrites2 (exportTrace2 db cs t1)
      = chunkFileWrites2 (exportTrace2 db cs t2)
    ∧ (exportTrace2 db cs t1).map scrubEvent2
        = (exportTrace2 db cs t2).map scrubEvent2
    ∧ scrubCreatedAt (metadata2 db cs t1)
        = scrubCreatedAt (metadata2 db cs t2) := by
  refine ⟨?_, ?_, rfl⟩
  · show chunkFileWrites2 (((List.range (numChunks db.keywords.length cs)).map
      fun i => WriteEvent2.chunkFile (chunkFilename2 i) (chunkBytes db cs i))
      ++ [WriteEvent2.manifest (metadata2 db cs t1)])
      = chunkFileWrites2 (((List.range (numChunks db.keywords.length cs)).map
      fun i => WriteEvent2.chunkFile (chunkFilename2 i) (chunkBytes db cs i))
      ++ [WriteEvent2.manifest (metadata2 db cs t2)])
    rw [chunkFileWrites2_append_manifest, chunkFileWrites2_append_manifest]
  · show (((List.range (numChunks db.keywords.length cs)).map
      fun i => WriteEvent2.chunkFile (chunkFilename2 i) (chunkBytes db cs i))
      ++ [WriteEvent2.manifest (metadata2 db cs t1)]).map scrubEvent2
      = (((List.range (numChunks db.keywords.length cs)).map
      fun i => WriteEvent2.chunkFile (chunkFilename2 i) (chunkBytes db cs i))
      ++ [WriteEvent2.manifest (metadata2 db cs t2)]).map scrubEvent2
    rw [List.map_append, List.map_append]
    rfl

/-- Claim C10 (confirmed): the flat per-keyword index entry at global
position `g` satisfies `chunk_id * chunk_size + local_index = g`, names
`keywords[g]`, carries a local index below its chunk's `keyword_count`,
and locates the embedding as row `local_index` of chunk `chunk_id`. -/
theorem keyword_index_locates (db : Database) (cs g : Nat) (hcs : 0 < cs)
    (hg : g < db.keywords.length) :
    (keywordIndex2 db.keywords cs)[g]?
        = some { keyword := db.keywords.getD g "", chunk_id := g / cs,
                 local_index := g % cs }
    ∧ (g / cs) * cs + g % cs = g
    ∧ g % cs < (mkChunkRecord2 db.keywords.length cs (g / cs)).keyword_count
    ∧ (chunkRecords2 db.keywords.length cs)[g / cs]?
        = some (mkChunkRecord2 db.keywords.length cs (g / cs))
    ∧ (slice db.rows ((g / cs) * cs)
        (min ((g / cs) * cs + cs) db.keywords.length))[g % cs]?
        = db.rows[g]? := by
  have hq := Nat.div_add_mod g cs
  have hcomm : cs * (g / cs) = (g / cs) * cs := Nat.mul_comm _ _
  have hmodlt : g % cs < cs := Nat.mod_lt g hcs
  have hcount : g % cs
      < min ((g / cs) * cs + cs) db.keywords.length - (g / cs) * cs := by
    omega
  refine ⟨?_, by omega, hcount, ?_, ?_⟩
  · rw [keywordIndex2_eq_map_range db.keywords cs hcs, List.getElem?_map,
      List.getElem?_range hg]
    rfl
  · have hdivlt : g / cs < numChunks db.keywords.length cs := by
      have h1 := le_numChunks_mul db.keywords.length cs hcs
      exact (Nat.div_lt_iff_lt_mul hcs).mpr (by omega)
    show ((List.range (numChunks db.keywords.length cs)).map
      (mkChunkRecord2 db.keywords.length cs))[g / cs]? = _
    rw [List.getElem?_map, List.getElem?_range hdivlt]
    rfl
  · show ((db.rows.drop ((g / cs) * cs)).take
      (min ((g / cs) * cs + cs) db.keywords.length - (g / cs) * cs))[g % cs]?
      = db.rows[g]?
    rw [List.getElem?_take_of_lt hcount, List.getElem?_drop]
    congr 1
    omega

/-- Witness: the index entry for global position 2 of the spec's scenario
(chunk 1, local row 0, keyword `c`). -/
theorem keyword_index_locates_witness :
    (0 < 2 ∧ 2 < dbScenario.keywords.length)
    ∧ (keywordIndex2 dbScenario.keywords 2)[2]?
        = some { keyword := "c", chunk_id := 1, local_index := 0 } :=
  ⟨⟨by decide, by decide⟩,
   (keyword_index_locates dbScenario 2 2 (by decide) (by decide)).1⟩

end TrendSearch
